import Mathlib

/-!
Verification of the extension-handling core of the unic-locale library:
extension-type classification, the two extension-subtag parsers
(the peekable-iterator list dispatch in `ExtensionsMap::try_from_iter`
and the key/value state machine in `parse_extension_subtags`), the
`ExtensionsMap` aggregate, its canonical serialization, and the
`Locale`-level integration (`matches`, setters).

Strings are modelled as lists of characters (`Str`); the inputs of
interest are ASCII, where Rust's byte-level splitting on `-`/`_`
coincides with character-level splitting.
-/

set_option maxRecDepth 4096

abbrev Str := List Char

/-- The separator predicate of the source: `*c == b'-' || *c == b'_'`. -/
def isSep (c : Char) : Bool := c == '-' || c == '_'

/-- Splitting as Rust's `slice::split` / `str::split`: always yields at
least one (possibly empty) piece; adjacent separators yield empty pieces. -/
def splitSep : Str → List Str
  | [] => [[]]
  | c :: rest =>
    match splitSep rest with
    | [] => [[]]
    | t :: ts => if isSep c then [] :: t :: ts else (c :: t) :: ts

def isLowerAlpha (c : Char) : Bool := 'a' ≤ c && c ≤ 'z'

def isUpperAlpha (c : Char) : Bool := 'A' ≤ c && c ≤ 'Z'

def isDigitCh (c : Char) : Bool := '0' ≤ c && c ≤ '9'

/-- `u8::to_ascii_lowercase`. -/
def toAsciiLower (c : Char) : Char :=
  if isUpperAlpha c then Char.ofNat (c.toNat + 32) else c

/-- `u8::is_ascii_alphanumeric`. -/
def isAsciiAlphanumeric (c : Char) : Bool :=
  isLowerAlpha c || isUpperAlpha c || isDigitCh c

/-- Lowercase ASCII alphanumeric: the character class of tokens at this
stage of the pipeline (input is case-folded to lowercase before the
extension parsers run, per the spec). -/
def isAlnumLower (c : Char) : Bool := isLowerAlpha c || isDigitCh c

/-- Modelled from the spec: the per-type collaborators (the `unicode`,
`transform` and `private` modules) are not under src/; their key/value
validation is modelled as requiring a nonempty lowercase-alphanumeric
token. -/
def validTok (s : Str) : Bool := !s.isEmpty && s.all isAlnumLower

/-- The parser error type; `parser/errors.rs` is not under src/, the
variants are the ones used by the code under src/. -/
inductive ParserError
  | InvalidLanguage
  | InvalidSubtag
  | InvalidExtension
  deriving DecidableEq

/-- Outcome discriminator: a returned `ParserError`, or an abort of the
process (`unimplemented!()` in the source). -/
inductive Fail
  | err (e : ParserError)
  | panic_
  deriving DecidableEq

deriving instance DecidableEq for Except

/-- `ExtensionType` with the source's declaration order
(Transform, Unicode, Private, Other). -/
inductive ExtensionType
  | Transform
  | Unicode
  | Private_
  | Other (c : Char)
  deriving DecidableEq

/-- `ExtensionType::from_byte`. -/
def ExtensionType.from_byte (key : Char) : Except ParserError ExtensionType :=
  let k := toAsciiLower key
  if k = 'u' then .ok .Unicode
  else if k = 't' then .ok .Transform
  else if k = 'x' then .ok .Private_
  else if isAsciiAlphanumeric k then .ok (.Other k)
  else .error .InvalidExtension

/-- Discriminant position in the source's declaration order, which is what
Rust's `derive(PartialOrd, Ord)` compares first. -/
def ExtensionType.rank : ExtensionType → Nat
  | .Transform => 0
  | .Unicode => 1
  | .Private_ => 2
  | .Other _ => 3

/-- The derived `Ord` of the source enum: discriminant order, then the
`Other` payload character. -/
def ExtensionType.cmp (x y : ExtensionType) : Ordering :=
  match compare x.rank y.rank with
  | .eq =>
    match x, y with
    | .Other a, .Other b => compare a b
    | _, _ => .eq
  | o => o

def ExtensionType.lt (x y : ExtensionType) : Prop := ExtensionType.cmp x y = .lt

instance (x y : ExtensionType) : Decidable (ExtensionType.lt x y) := by
  unfold ExtensionType.lt; infer_instance

/-- Modelled from the spec: `FromStr for ExtensionType` is not under src/;
per §4.1 a singleton token classifies by its (only) byte. -/
def parseExtensionTypeTok (s : Str) : Option ExtensionType :=
  match s with
  | [c] =>
    match ExtensionType.from_byte c with
    | .ok t => some t
    | .error _ => none
  | _ => none

abbrev KV := Str × Option Str

/-- Lexicographic order on tokens (the `BTreeMap` key order of the source). -/
def strLt : Str → Str → Bool
  | [], [] => false
  | [], _ :: _ => true
  | _ :: _, [] => false
  | a :: xs, b :: ys => if a < b then true else if b < a then false else strLt xs ys

/-- Ordered-map insertion: keeps the association list sorted by key and
replaces the value on an existing key (`BTreeMap::insert`). -/
def insertKV : List KV → Str → Option Str → List KV
  | [], k, v => [(k, v)]
  | (k2, v2) :: rest, k, v =>
    if strLt k k2 then (k, v) :: (k2, v2) :: rest
    else if k = k2 then (k, v) :: rest
    else (k2, v2) :: insertKV rest k v

/-- Modelled from the spec: a collaborator `set` call; validates the key
and the optional value and stores the pair in key order. -/
def setKV (l : List KV) (k : Str) (v : Option Str) : Except Fail (List KV) :=
  if validTok k then
    match v with
    | none => .ok (insertKV l k none)
    | some w => if validTok w then .ok (insertKV l k (some w)) else .error (.err .InvalidExtension)
  else .error (.err .InvalidExtension)

/-- The token sequence of a serialized key/value section body. -/
def entryToks : List KV → List Str
  | [] => []
  | (k, none) :: r => k :: entryToks r
  | (k, some v) :: r => k :: v :: entryToks r

/-- Prepend a `-` to each token and concatenate (the shape of every
serialized extension section). -/
def dashJoin : List Str → Str
  | [] => []
  | t :: ts => '-' :: t ++ dashJoin ts

/-- Token sequence of a key/value section: the singleton letter followed
by the entry tokens, or nothing when the section is empty. -/
def sectionToks (letter : Char) (kws : List KV) : List Str :=
  if kws.isEmpty then [] else [letter] :: entryToks kws

/-- Token sequence of the private section. -/
def pvtToks (tags : List Str) : List Str :=
  if tags.isEmpty then [] else ['x'] :: tags

/-- Modelled from the spec: `UnicodeExtensionList` (module `unicode` is
not under src/); a map from keys to optional values, unique sorted keys. -/
structure UnicodeExtensionList where
  keywords : List KV
  deriving DecidableEq

/-- Modelled from the spec: `TransformExtensionList` (module `transform`
is not under src/); modelled as a key/value list like the unicode one. -/
structure TransformExtensionList where
  keywords : List KV
  deriving DecidableEq

/-- Modelled from the spec: `PrivateExtensionList` (module `private` is
not under src/); an ordered list of opaque payload tags. -/
structure PrivateExtensionList where
  tags : List Str
  deriving DecidableEq

def UnicodeExtensionList.is_empty (u : UnicodeExtensionList) : Bool := u.keywords.isEmpty

def TransformExtensionList.is_empty (t : TransformExtensionList) : Bool := t.keywords.isEmpty

def PrivateExtensionList.is_empty (p : PrivateExtensionList) : Bool := p.tags.isEmpty

/-- Modelled from the spec: `Display` of the unicode list, e.g. `-u-ca-gregory`. -/
def UnicodeExtensionList.toStr (u : UnicodeExtensionList) : Str :=
  dashJoin (sectionToks 'u' u.keywords)

/-- Modelled from the spec: `Display` of the transform list, e.g. `-t-xxxx`. -/
def TransformExtensionList.toStr (t : TransformExtensionList) : Str :=
  dashJoin (sectionToks 't' t.keywords)

/-- Modelled from the spec: `Display` of the private list, e.g. `-x-priv`. -/
def PrivateExtensionList.toStr (p : PrivateExtensionList) : Str :=
  dashJoin (pvtToks p.tags)

/-- `ExtensionsMap` with the source's field order. -/
structure ExtensionsMap where
  unicode : UnicodeExtensionList
  transform : TransformExtensionList
  other : List (Char × List Str)
  private_ : PrivateExtensionList
  deriving DecidableEq

/-- `Default::default()` for `ExtensionsMap`. -/
def ExtensionsMap.default : ExtensionsMap := ⟨⟨[]⟩, ⟨[]⟩, [], ⟨[]⟩⟩

/-- Modelled from the spec: `UnicodeExtensionKey::from_str`; the key
grammar is not under src/, modelled as any valid token. -/
def parseUnicodeExtensionKey (s : Str) : Option Str :=
  if validTok s then some s else none

/-- Modelled from the spec: `ExtensionsMap::set_unicode_value`. -/
def ExtensionsMap.set_unicode_value (m : ExtensionsMap) (k : Str) (v : Option Str) :
    Except Fail ExtensionsMap :=
  match setKV m.unicode.keywords k v with
  | .ok l => .ok { m with unicode := ⟨l⟩ }
  | .error e => .error e

/-- Modelled from the spec: `ExtensionsMap::set_transform_value`. -/
def ExtensionsMap.set_transform_value (m : ExtensionsMap) (k : Str) (v : Option Str) :
    Except Fail ExtensionsMap :=
  match setKV m.transform.keywords k v with
  | .ok l => .ok { m with transform := ⟨l⟩ }
  | .error e => .error e

/-- Modelled from the spec: `ExtensionsMap::set_private_value`; appends the
key token and, when present, the value token to the payload list. -/
def ExtensionsMap.set_private_value (m : ExtensionsMap) (k : Str) (v : Option Str) :
    Except Fail ExtensionsMap :=
  if validTok k && v.all validTok then
    .ok { m with private_ := ⟨m.private_.tags ++ k :: v.toList⟩ }
  else .error (.err .InvalidExtension)

/-- `ExtensionsMap::is_empty` (the `other` map is not consulted). -/
def ExtensionsMap.is_empty (m : ExtensionsMap) : Bool :=
  m.unicode.is_empty && m.transform.is_empty && m.private_.is_empty

/-- `ExtensionsMap::get_private` (declared outside src/; returns the
private list). -/
def ExtensionsMap.get_private (m : ExtensionsMap) : PrivateExtensionList := m.private_

/-- `Display for ExtensionsMap`: transform, then unicode, then private;
`other` is not written. -/
def ExtensionsMap.toStr (m : ExtensionsMap) : Str :=
  m.transform.toStr ++ m.unicode.toStr ++ m.private_.toStr

/-- Modelled from the spec: the section body parser shared by the unicode
and transform collaborators' `try_from_iter` (modules not under src/).
It consumes tokens up to the next singleton (one-character token) or end
of input, pairing each key with at most the one following value token,
and leaves the iterator positioned at the singleton. -/
def kvFromIter : List KV → List Str → Except Fail (List KV × List Str)
  | acc, [] => .ok (acc, [])
  | acc, t :: ts =>
    if t.length = 1 then .ok (acc, t :: ts)
    else
      match ts with
      | [] =>
        match setKV acc t none with
        | .ok acc2 => .ok (acc2, [])
        | .error e => .error e
      | v :: ts2 =>
        if 1 < v.length then
          match setKV acc t (some v) with
          | .ok acc2 => kvFromIter acc2 ts2
          | .error e => .error e
        else
          match setKV acc t none with
          | .ok acc2 => kvFromIter acc2 (v :: ts2)
          | .error e => .error e

/-- Modelled from the spec: `PrivateExtensionList::try_from_iter` body;
consumes payload tokens up to the next singleton or end of input. -/
def pvtFromIter : List Str → List Str → Except Fail (List Str × List Str)
  | acc, [] => .ok (acc, [])
  | acc, t :: ts =>
    if t.length = 1 then .ok (acc, t :: ts)
    else if validTok t then pvtFromIter (acc ++ [t]) ts
    else .error (.err .InvalidExtension)

/-- The head of the source dispatch `match` in `ExtensionsMap::try_from_iter`
(`subtag.first().map(|b| ExtensionType::from_byte(*b))`), folded into one
classification: `Boom` is the source's `_ => unimplemented!()` arm, which
catches both `Some(Ok(Other(_)))` and `Some(Err(_))`. -/
inductive Dispatch
  | NoByte
  | U
  | T
  | X
  | Boom

/-- Classification of a dispatch token by its first byte only. -/
def dispatchOf (t : Str) : Dispatch :=
  match t.head? with
  | none => .NoByte
  | some b =>
    match ExtensionType.from_byte b with
    | .ok .Unicode => .U
    | .ok .Transform => .T
    | .ok .Private_ => .X
    | _ => .Boom

/-- `ExtensionsMap::try_from_iter`, fuel-indexed so that it is structurally
recursive (one fuel unit per iteration of the source's `while let` loop;
each iteration consumes at least one token, so `toks.length` fuel always
suffices). The dispatcher looks only at the first byte of the next token
(`dispatchOf`); `Boom` is the source's `_ => unimplemented!()` arm,
modelled as `panic_`. -/
def tryFromIterFuel : Nat → List Str → ExtensionsMap → Except Fail ExtensionsMap
  | _, [], m => .ok m
  | 0, _ :: _, _ => .error .panic_
  | fuel + 1, t :: ts, m =>
    match dispatchOf t with
    | .NoByte => tryFromIterFuel fuel ts m
    | .U =>
      match kvFromIter [] ts with
      | .ok (kws, rest) => tryFromIterFuel fuel rest { m with unicode := ⟨kws⟩ }
      | .error e => .error e
    | .T =>
      match kvFromIter [] ts with
      | .ok (kws, rest) => tryFromIterFuel fuel rest { m with transform := ⟨kws⟩ }
      | .error e => .error e
    | .X =>
      match pvtFromIter [] ts with
      | .ok (tags, rest) => tryFromIterFuel fuel rest { m with private_ := ⟨tags⟩ }
      | .error e => .error e
    | .Boom => .error .panic_

/-- `ExtensionsMap::try_from_iter` on a token stream. -/
def ExtensionsMap.try_from_iter (toks : List Str) : Except Fail ExtensionsMap :=
  tryFromIterFuel toks.length toks ExtensionsMap.default

/-- `ExtensionsMap::from_bytes`: split on `-`/`_` and run the list dispatch. -/
def ExtensionsMap.from_bytes (s : Str) : Except Fail ExtensionsMap :=
  ExtensionsMap.try_from_iter (splitSep s)

/-- `FromStr for ExtensionsMap` delegates to `from_bytes`. -/
def ExtensionsMap.from_str (s : Str) : Except Fail ExtensionsMap :=
  ExtensionsMap.from_bytes s

/-- The flush of a pending key/value pair in `parse_extension_subtags`
(source lines 35-50, 61-76, 86-101): unicode first parses the key as a
`UnicodeExtensionKey`, every collaborator error is mapped to
`InvalidExtension`. The source `match` has no `Other` arm; that case is
modelled as stuck (`panic_`). -/
def flushKey (m : ExtensionsMap) (ty : ExtensionType) (k : Str) (v : Option Str) :
    Except Fail ExtensionsMap :=
  match ty with
  | .Unicode =>
    match parseUnicodeExtensionKey k with
    | none => .error (.err .InvalidExtension)
    | some key =>
      match m.set_unicode_value key v with
      | .ok m2 => .ok m2
      | .error _ => .error (.err .InvalidExtension)
  | .Transform =>
    match m.set_transform_value k v with
    | .ok m2 => .ok m2
    | .error _ => .error (.err .InvalidExtension)
  | .Private_ =>
    match m.set_private_value k v with
    | .ok m2 => .ok m2
    | .error _ => .error (.err .InvalidExtension)
  | .Other _ => .error .panic_

/-- The token loop of `parse_extension_subtags` with its two pieces of
state (`current_type`, `current_key`) made explicit, plus the end-of-input
flush (source lines 84-105). -/
def peSubtagsGo : List Str → Option ExtensionType → Option Str → ExtensionsMap →
    Except Fail ExtensionsMap
  | [], cty, ckey, m =>
    match ckey with
    | none => .ok m
    | some k =>
      match cty with
      | none => .error (.err .InvalidSubtag)
      | some ty => flushKey m ty k none
  | s :: rest, cty, ckey, m =>
    if s.length = 1 then
      match ckey, cty with
      | some k, some ty =>
        match flushKey m ty k none with
        | .error e => .error e
        | .ok m2 =>
          match parseExtensionTypeTok s with
          | none => .error (.err .InvalidExtension)
          | some ty2 => peSubtagsGo rest (some ty2) none m2
      | some _, none => .error (.err .InvalidExtension)
      | none, _ =>
        match parseExtensionTypeTok s with
        | none => .error (.err .InvalidExtension)
        | some ty2 => peSubtagsGo rest (some ty2) none m
    else
      match cty with
      | none => .error (.err .InvalidSubtag)
      | some ty =>
        match ckey with
        | some k =>
          match flushKey m ty k (some s) with
          | .error e => .error e
          | .ok m2 => peSubtagsGo rest (some ty) none m2
        | none => peSubtagsGo rest (some ty) (some s) m

/-- `parse_extension_subtags` (the key/value state-machine mode). -/
def parse_extension_subtags (t : Str) : Except Fail ExtensionsMap :=
  if t.isEmpty then .ok ExtensionsMap.default
  else peSubtagsGo (splitSep t) none none ExtensionsMap.default

namespace UnicLocale

/-- `Locale`, with the external `LanguageIdentifier` (the `unic_langid`
crate, an external collaborator per the spec) kept abstract as a type
parameter. -/
structure Locale (L : Type) where
  langid : L
  extensions : ExtensionsMap

/-- `Locale::matches`: `false` when either side carries a non-empty
private extension, otherwise the language identifiers' own matching,
which is abstract here (external collaborator). -/
def Locale.matches {L : Type} (langidMatches : L → L → Bool → Bool → Bool)
    (self other : Locale L) (selfAsRange otherAsRange : Bool) : Bool :=
  if !(self.extensions.get_private.is_empty) || !(other.extensions.get_private.is_empty) then
    false
  else
    langidMatches self.langid other.langid selfAsRange otherAsRange

/-- `Locale::set_language`: delegates to the abstract language-identifier
setter `f`; only the `langid` field is touched. -/
def Locale.set_language {L E : Type} (f : Option Str → L → Except E L)
    (loc : Locale L) (language : Option Str) : Except E Unit × Locale L :=
  match f language loc.langid with
  | .ok l2 => (.ok (), { loc with langid := l2 })
  | .error e => (.error e, loc)

/-- `Locale::set_script` (same delegation shape). -/
def Locale.set_script {L E : Type} (f : Option Str → L → Except E L)
    (loc : Locale L) (script : Option Str) : Except E Unit × Locale L :=
  match f script loc.langid with
  | .ok l2 => (.ok (), { loc with langid := l2 })
  | .error e => (.error e, loc)

/-- `Locale::set_region` (same delegation shape). -/
def Locale.set_region {L E : Type} (f : Option Str → L → Except E L)
    (loc : Locale L) (region : Option Str) : Except E Unit × Locale L :=
  match f region loc.langid with
  | .ok l2 => (.ok (), { loc with langid := l2 })
  | .error e => (.error e, loc)

/-- `Locale::set_variants` (same delegation shape). -/
def Locale.set_variants {L E : Type} (f : List Str → L → Except E L)
    (loc : Locale L) (variants : List Str) : Except E Unit × Locale L :=
  match f variants loc.langid with
  | .ok l2 => (.ok (), { loc with langid := l2 })
  | .error e => (.error e, loc)

/-- `Locale::set_extension`: only `ExtensionType::Unicode` is implemented;
it parses the key and forwards to `set_unicode_value`, touching only the
`extensions` field; every other type is `unimplemented!()`. -/
def Locale.set_extension {L : Type} (loc : Locale L) (extension : ExtensionType)
    (key : Str) (value : Option Str) : Except Fail Unit × Locale L :=
  match extension with
  | .Unicode =>
    match parseUnicodeExtensionKey key with
    | none => (.error (.err .InvalidExtension), loc)
    | some k =>
      match loc.extensions.set_unicode_value k value with
      | .ok m2 => (.ok (), { loc with extensions := m2 })
      | .error e => (.error e, loc)
  | _ => (.error .panic_, loc)

end UnicLocale

/-- Convenience: character list of a string literal. -/
def strOf (s : String) : Str := s.toList

lemma splitSep_ne_nil (s : Str) : splitSep s ≠ [] := by
  cases s with
  | nil => simp [splitSep]
  | cons c rest =>
    simp only [splitSep]
    rcases h : splitSep rest with _ | ⟨t, ts⟩
    · simp
    · by_cases hc : isSep c = true <;> simp [hc]

lemma splitSep_cons_exists (s : Str) : ∃ t ts, splitSep s = t :: ts := by
  rcases h : splitSep s with _ | ⟨t, ts⟩
  · exact absurd h (splitSep_ne_nil s)
  · exact ⟨t, ts, rfl⟩

lemma splitSep_sep_cons (c : Char) (s : Str) (h : isSep c = true) :
    splitSep (c :: s) = [] :: splitSep s := by
  obtain ⟨t, ts, hs⟩ := splitSep_cons_exists s
  simp [splitSep, hs, h]

lemma splitSep_notSep_cons (c : Char) (s : Str) (h : isSep c = false) :
    splitSep (c :: s) =
      (c :: (splitSep s).headD []) :: (splitSep s).tail := by
  obtain ⟨t, ts, hs⟩ := splitSep_cons_exists s
  simp [splitSep, hs, h]

lemma splitSep_sepFree_append (t : Str) (s : Str) (r : Str) (rs : List Str)
    (hfree : ∀ c ∈ t, isSep c = false) (hs : splitSep s = r :: rs) :
    splitSep (t ++ s) = (t ++ r) :: rs := by
  induction t with
  | nil => simpa using hs
  | cons c t2 ih =>
    have hc : isSep c = false := hfree c (by simp)
    have ih2 := ih (fun d hd => hfree d (by simp [hd]))
    simp [splitSep_notSep_cons c (t2 ++ s) hc, ih2]

lemma splitSep_sepFree (t : Str) (hfree : ∀ c ∈ t, isSep c = false) :
    splitSep t = [t] := by
  have h := splitSep_sepFree_append t [] [] [] hfree (by simp [splitSep])
  simpa using h

lemma isAlnumLower_not_sep (c : Char) (h : isAlnumLower c = true) : isSep c = false := by
  by_contra hc
  have hsep : isSep c = true := by
    cases h2 : isSep c
    · exact absurd h2 hc
    · rfl
  have : c = '-' ∨ c = '_' := by
    simpa [isSep] using hsep
  rcases this with h3 | h3 <;> subst h3 <;> simp [isAlnumLower, isLowerAlpha, isDigitCh] at h

lemma validTok_sepFree (s : Str) (h : validTok s = true) :
    ∀ c ∈ s, isSep c = false := by
  intro c hc
  have hall : s.all isAlnumLower = true := by
    simp only [validTok, Bool.and_eq_true] at h
    exact h.2
  exact isAlnumLower_not_sep c (by simpa using List.all_eq_true.mp hall c hc)

lemma from_byte_ok_not_sep (c : Char) (t : ExtensionType)
    (h : ExtensionType.from_byte c = .ok t) : isSep c = false := by
  by_contra hc
  have hsep : c = '-' ∨ c = '_' := by
    cases h2 : isSep c
    · exact absurd h2 hc
    · simpa [isSep] using h2
  rcases hsep with h3 | h3 <;> subst h3 <;> simp [ExtensionType.from_byte, toAsciiLower,
    isUpperAlpha, isAsciiAlphanumeric, isLowerAlpha, isDigitCh] at h

/-- C9 counterexample: the derived order of the source enum follows
declaration order (`Transform, Unicode, Private, Other`), so
`Other('a') < Private` is false and in fact `Private < Other('a')`. -/
theorem extensionType_ord_counterexample :
    ¬ ExtensionType.lt (.Other 'a') .Private_ ∧ ExtensionType.lt .Private_ (.Other 'a') := by
  constructor <;> decide

/-- C9 (amended): the derived total order on `ExtensionType` is
declaration order: for every char `c`, `Transform < Unicode`,
`Unicode < Private`, `Private < Other(c)` (and hence `Transform`,
`Unicode` also precede `Private` and `Other(c)`). -/
theorem extensionType_ord_amended (c : Char) :
    ExtensionType.lt .Transform .Unicode ∧ ExtensionType.lt .Unicode .Private_ ∧
    ExtensionType.lt .Private_ (.Other c) ∧ ExtensionType.lt .Transform .Private_ ∧
    ExtensionType.lt .Transform (.Other c) ∧ ExtensionType.lt .Unicode (.Other c) :=
  ⟨rfl, rfl, rfl, rfl, rfl, rfl⟩

/-- C8: `ExtensionsMap::is_empty` holds iff the unicode, transform and
private lists are all empty; the `other` map is not consulted, so a map
whose only content is in `other` still reports empty. -/
theorem extensionsMap_is_empty_spec :
    (∀ m : ExtensionsMap, m.is_empty = true ↔
      (m.unicode.keywords = [] ∧ m.transform.keywords = [] ∧ m.private_.tags = []))
    ∧ (∀ (m : ExtensionsMap) (o : List (Char × List Str)),
        ExtensionsMap.is_empty { m with other := o } = m.is_empty)
    ∧ ExtensionsMap.is_empty ⟨⟨[]⟩, ⟨[]⟩, [('q', [['a', 'b']])], ⟨[]⟩⟩ = true := by
  refine ⟨fun m => ?_, fun m o => rfl, by decide⟩
  simp [ExtensionsMap.is_empty, UnicodeExtensionList.is_empty,
    TransformExtensionList.is_empty, PrivateExtensionList.is_empty,
    List.isEmpty_iff, and_assoc]

/-- C2: `Display` renders transform, then unicode, then private, in that
fixed order regardless of parse order, and the `other` map contributes
nothing; in particular `-t-xxxx-u-ca-gregory` and `-u-ca-gregory-t-xxxx`
both serialize back to `-t-xxxx-u-ca-gregory`. -/
theorem display_fixed_order :
    (∀ (m : ExtensionsMap) (o : List (Char × List Str)),
      ExtensionsMap.toStr { m with other := o } = m.toStr)
    ∧ (∀ m : ExtensionsMap,
      m.toStr = m.transform.toStr ++ m.unicode.toStr ++ m.private_.toStr)
    ∧ (ExtensionsMap.from_bytes (strOf "-t-xxxx-u-ca-gregory")).map ExtensionsMap.toStr
        = .ok (strOf "-t-xxxx-u-ca-gregory")
    ∧ (ExtensionsMap.from_bytes (strOf "-u-ca-gregory-t-xxxx")).map ExtensionsMap.toStr
        = .ok (strOf "-t-xxxx-u-ca-gregory") :=
  ⟨fun m o => rfl, fun m => rfl, by decide, by decide⟩

/-- C6: `Locale::matches` returns `false` whenever either side has a
non-empty private extension list, and otherwise coincides with the
language identifiers' own matching, for every combination of the two
range flags. -/
theorem locale_matches_privacy {L : Type} (langidMatches : L → L → Bool → Bool → Bool)
    (a b : UnicLocale.Locale L) (r1 r2 : Bool) :
    (a.extensions.get_private.tags ≠ [] ∨ b.extensions.get_private.tags ≠ [] →
      UnicLocale.Locale.matches langidMatches a b r1 r2 = false)
    ∧ (a.extensions.get_private.tags = [] → b.extensions.get_private.tags = [] →
      UnicLocale.Locale.matches langidMatches a b r1 r2
        = langidMatches a.langid b.langid r1 r2) := by
  constructor
  · intro h
    simp only [ExtensionsMap.get_private] at h
    have hcond : (!(a.extensions.private_.tags.isEmpty)
        || !(b.extensions.private_.tags.isEmpty)) = true := by
      rcases h with h | h
      · have h2 : a.extensions.private_.tags.isEmpty = false := by
          simpa [List.isEmpty_iff] using h
        simp [h2]
      · have h2 : b.extensions.private_.tags.isEmpty = false := by
          simpa [List.isEmpty_iff] using h
        simp [h2]
    simp [UnicLocale.Locale.matches, ExtensionsMap.get_private,
      PrivateExtensionList.is_empty, hcond]
  · intro ha hb
    simp only [ExtensionsMap.get_private] at ha hb
    simp [UnicLocale.Locale.matches, ExtensionsMap.get_private,
      PrivateExtensionList.is_empty, ha, hb]

/-- Witness for C6 at concrete inputs: a locale carrying the private tag
`ab` never matches, and two private-free locales defer to the language
identifiers' matcher. -/
theorem locale_matches_privacy_witness :
    UnicLocale.Locale.matches (fun (_ _ : Unit) (_ _ : Bool) => true)
      ⟨(), ⟨⟨[]⟩, ⟨[]⟩, [], ⟨[['a', 'b']]⟩⟩⟩ ⟨(), ExtensionsMap.default⟩ true false = false
    ∧ UnicLocale.Locale.matches (fun (_ _ : Unit) (_ _ : Bool) => true)
      ⟨(), ExtensionsMap.default⟩ ⟨(), ExtensionsMap.default⟩ true false = true :=
  ⟨(locale_matches_privacy _ _ _ _ _).1 (Or.inl (by decide)),
   (locale_matches_privacy _ _ _ _ _).2 rfl rfl⟩

/-- C10: the component setters are frame-preserving: `set_language`,
`set_script`, `set_region` and `set_variants` never change the
`extensions` field (on success and on error), and `set_extension` with
`ExtensionType::Unicode` never changes the `langid` field. -/
theorem locale_setters_frame {L E : Type} (f : Option Str → L → Except E L)
    (g : List Str → L → Except E L) (loc : UnicLocale.Locale L)
    (x : Option Str) (vs : List Str) (key : Str) (value : Option Str) :
    (loc.set_language f x).2.extensions = loc.extensions
    ∧ (loc.set_script f x).2.extensions = loc.extensions
    ∧ (loc.set_region f x).2.extensions = loc.extensions
    ∧ (loc.set_variants g vs).2.extensions = loc.extensions
    ∧ (loc.set_extension .Unicode key value).2.langid = loc.langid := by
  refine ⟨?_, ?_, ?_, ?_, ?_⟩
  · unfold UnicLocale.Locale.set_language
    cases f x loc.langid <;> simp
  · unfold UnicLocale.Locale.set_script
    cases f x loc.langid <;> simp
  · unfold UnicLocale.Locale.set_region
    cases f x loc.langid <;> simp
  · unfold UnicLocale.Locale.set_variants
    cases g vs loc.langid <;> simp
  · unfold UnicLocale.Locale.set_extension
    cases parseUnicodeExtensionKey key with
    | none => simp
    | some k =>
      simp only []
      cases loc.extensions.set_unicode_value k value <;> simp

/-- C3 counterexample: in list-dispatch mode a first token of length
greater than one whose first byte classifies as `Other` hits the
`unimplemented!()` arm (modelled `panic_`) instead of returning
`InvalidSubtag`. -/
theorem listDispatch_first_long_token_not_invalidSubtag :
    ExtensionsMap.from_bytes (strOf "ca-gregory") = .error .panic_
    ∧ ExtensionsMap.from_bytes (strOf "ca-gregory") ≠ .error (.err .InvalidSubtag) := by
  constructor <;> decide

/-- C3 (amended): the key/value state machine rejects a non-empty token
stream whose first token is longer than one character with
`InvalidSubtag`; list-dispatch mode instead classifies the first token by
its first byte alone, so `ca-gregory` panics (`unimplemented!()`), while
`ua-gregory` is dispatched as if the token were the singleton `u`. -/
theorem first_long_token_amended :
    (∀ (s t : Str) (ts : List Str), s ≠ [] → splitSep s = t :: ts → 1 < t.length →
      parse_extension_subtags s = .error (.err .InvalidSubtag))
    ∧ ExtensionsMap.from_bytes (strOf "ca-gregory") = .error .panic_
    ∧ ExtensionsMap.from_bytes (strOf "ua-gregory")
        = .ok ⟨⟨[(strOf "gregory", none)]⟩, ⟨[]⟩, [], ⟨[]⟩⟩ := by
  refine ⟨?_, by decide, by decide⟩
  intro s t ts hs hsplit hlen
  have hne : s.isEmpty = false := by
    cases s
    · exact absurd rfl hs
    · rfl
  have hlt : ¬(t.length = 1) := by omega
  simp [parse_extension_subtags, hne, hsplit, peSubtagsGo, hlt]

/-- Witness for C3: the state machine rejects `ca-gregory` with
`InvalidSubtag`. -/
theorem first_long_token_amended_witness :
    parse_extension_subtags (strOf "ca-gregory") = .error (.err .InvalidSubtag) :=
  first_long_token_amended.1 _ (strOf "ca") [strOf "gregory"]
    (by decide) (by decide) (by decide)

/-- C4 counterexample: in list-dispatch mode a singleton whose byte fails
classification (here `!`) hits the `unimplemented!()` arm (modelled
`panic_`) instead of returning the error `InvalidExtension`. -/
theorem listDispatch_bad_singleton_panics :
    ExtensionsMap.from_bytes (strOf "!") = .error .panic_
    ∧ ExtensionsMap.from_bytes (strOf "!") ≠ .error (.err .InvalidExtension) := by
  constructor <;> decide

/-- C4 (amended): a singleton whose byte is not ASCII alphanumeric after
lowercasing fails with the returned error `InvalidExtension` in the
key/value state-machine mode, but in list-dispatch mode the same
singleton reaches the `_ => unimplemented!()` arm and aborts. -/
theorem bad_singleton_amended (c : Char) (hsep : isSep c = false)
    (hb : ExtensionType.from_byte c = .error .InvalidExtension) :
    parse_extension_subtags [c] = .error (.err .InvalidExtension)
    ∧ ExtensionsMap.from_bytes [c] = .error .panic_ := by
  have hsplit : splitSep [c] = [[c]] := by
    refine splitSep_sepFree [c] ?_
    intro d hd
    simp only [List.mem_singleton] at hd
    subst hd
    exact hsep
  constructor
  · simp [parse_extension_subtags, hsplit, peSubtagsGo, parseExtensionTypeTok, hb]
  · simp [ExtensionsMap.from_bytes, ExtensionsMap.try_from_iter, hsplit,
      tryFromIterFuel, dispatchOf, hb]

/-- Witness for C4 at the concrete singleton `!`. -/
theorem bad_singleton_amended_witness :
    parse_extension_subtags ['!'] = .error (.err .InvalidExtension)
    ∧ ExtensionsMap.from_bytes ['!'] = .error .panic_ :=
  bad_singleton_amended '!' (by decide) (by decide)

lemma tryFromIterFuel_other (fuel : Nat) :
    ∀ (toks : List Str) (m m2 : ExtensionsMap),
      tryFromIterFuel fuel toks m = .ok m2 → m2.other = m.other := by
  induction fuel with
  | zero =>
    intro toks m m2 h
    cases toks with
    | nil =>
      simp only [tryFromIterFuel] at h
      cases h
      rfl
    | cons t ts => simp [tryFromIterFuel] at h
  | succ n ih =>
    intro toks m m2 h
    cases toks with
    | nil =>
      simp only [tryFromIterFuel] at h
      cases h
      rfl
    | cons t ts =>
      simp only [tryFromIterFuel] at h
      split at h
      · exact ih _ _ _ h
      · split at h
        · exact (ih _ _ _ h).trans rfl
        · simp at h
      · split at h
        · exact (ih _ _ _ h).trans rfl
        · simp at h
      · split at h
        · exact (ih _ _ _ h).trans rfl
        · simp at h
      · simp at h

/-- C5 counterexample: an input containing a well-classified Other-letter
singleton is not parsed with its tokens silently dropped; the dispatch
hits `unimplemented!()` (modelled `panic_`), an abort. -/
theorem other_letter_singleton_aborts :
    ExtensionsMap.from_bytes (strOf "a-bcd") = .error .panic_
    ∧ (ExtensionsMap.from_bytes (strOf "a-bcd")).isOk = false := by
  constructor <;> decide

/-- C5 (amended): the `other` map is never populated by list-dispatch
parsing and never serialized, and no collaborator is invoked for an
Other-letter section — but the letter's tokens are not silently dropped:
a well-classified Other-letter singleton reaching the dispatcher aborts
(`unimplemented!()`). -/
theorem other_inert_amended :
    (∀ (s : Str) (m : ExtensionsMap), ExtensionsMap.from_bytes s = .ok m → m.other = [])
    ∧ (∀ (u : UnicodeExtensionList) (t : TransformExtensionList)
        (o : List (Char × List Str)) (p : PrivateExtensionList),
        ExtensionsMap.toStr ⟨u, t, o, p⟩ = ExtensionsMap.toStr ⟨u, t, [], p⟩)
    ∧ (∀ (c d : Char) (s : Str), ExtensionType.from_byte c = .ok (.Other d) →
        ExtensionsMap.from_bytes (c :: '-' :: s) = .error .panic_) := by
  refine ⟨?_, fun u t o p => rfl, ?_⟩
  · intro s m h
    exact tryFromIterFuel_other _ _ _ _ h
  · intro c d s hb
    have hc : isSep c = false := from_byte_ok_not_sep c _ hb
    obtain ⟨t, ts, hs⟩ := splitSep_cons_exists s
    have hsplit : splitSep (c :: '-' :: s) = [c] :: t :: ts := by
      rw [splitSep_notSep_cons c _ hc, splitSep_sep_cons '-' s (by decide), hs]
      simp
    simp [ExtensionsMap.from_bytes, ExtensionsMap.try_from_iter, hsplit,
      tryFromIterFuel, dispatchOf, hb, List.length_cons]

/-- Witness for C5: a successful list-dispatch parse leaves `other` empty. -/
theorem other_inert_amended_witness :
    (⟨⟨[(['c', 'a'], none)]⟩, ⟨[]⟩, [], ⟨[]⟩⟩ : ExtensionsMap).other = [] :=
  other_inert_amended.1 (strOf "u-ca") _ (by decide)

/-- C7 counterexample: `parse_extension_subtags("-u-foo")` is not
accepted; the leading empty token precedes any singleton and the state
machine rejects it with `InvalidSubtag`. -/
theorem modeB_leading_separator_rejected :
    parse_extension_subtags (strOf "-u-foo") = .error (.err .InvalidSubtag) := by
  decide

/-- C7 (amended): in the key/value state machine a key token followed by
end of input or by another singleton, with no intervening value token
(e.g. `u-foo`; a leading separator as in `-u-foo` is instead rejected
with `InvalidSubtag`), is accepted and flushed into the open section as a
key with an absent value. -/
theorem attribute_only_key_amended (k : Str) (hv : validTok k = true)
    (hlen : 1 < k.length) :
    parse_extension_subtags ('u' :: '-' :: k)
      = .ok ⟨⟨[(k, none)]⟩, ⟨[]⟩, [], ⟨[]⟩⟩
    ∧ parse_extension_subtags ('u' :: '-' :: (k ++ ['-', 't']))
      = .ok ⟨⟨[(k, none)]⟩, ⟨[]⟩, [], ⟨[]⟩⟩ := by
  have hfree := validTok_sepFree k hv
  have hk1 : splitSep k = [k] := splitSep_sepFree k hfree
  have hlt : ¬(k.length = 1) := by omega
  have hsplit1 : splitSep ('u' :: '-' :: k) = [['u'], k] := by
    rw [splitSep_notSep_cons 'u' _ (by decide), splitSep_sep_cons '-' k (by decide), hk1]
    simp
  have hsplit2 : splitSep ('u' :: '-' :: (k ++ ['-', 't'])) = [['u'], k, ['t']] := by
    have happ : splitSep (k ++ ['-', 't']) = [k, ['t']] := by
      have h2 := splitSep_sepFree_append k ['-', 't'] [] [['t']] hfree (by decide)
      simpa using h2
    rw [splitSep_notSep_cons 'u' _ (by decide),
      splitSep_sep_cons '-' (k ++ ['-', 't']) (by decide), happ]
    simp
  constructor
  · simp [parse_extension_subtags, hsplit1, peSubtagsGo, parseExtensionTypeTok,
      ExtensionType.from_byte, toAsciiLower, isUpperAlpha, hlt, flushKey,
      parseUnicodeExtensionKey, hv, ExtensionsMap.set_unicode_value, setKV,
      insertKV, ExtensionsMap.default]
  · simp [parse_extension_subtags, hsplit2, peSubtagsGo, parseExtensionTypeTok,
      ExtensionType.from_byte, toAsciiLower, isUpperAlpha, hlt, flushKey,
      parseUnicodeExtensionKey, hv, ExtensionsMap.set_unicode_value, setKV,
      insertKV, ExtensionsMap.default]

/-- Witness for C7: `u-foo` records `foo` with an absent value. -/
theorem attribute_only_key_amended_witness :
    parse_extension_subtags (strOf "u-foo")
      = .ok ⟨⟨[(strOf "foo", none)]⟩, ⟨[]⟩, [], ⟨[]⟩⟩ :=
  (attribute_only_key_amended (strOf "foo") (by decide) (by decide)).1

lemma strLt_irrefl (s : Str) : strLt s s = false := by
  induction s with
  | nil => rfl
  | cons c cs ih => simp [strLt, ih]

lemma strLt_asymm : ∀ a b : Str, strLt a b = true → strLt b a = false := by
  intro a
  induction a with
  | nil =>
    intro b h
    cases b with
    | nil => simp [strLt] at h
    | cons d ds => simp [strLt]
  | cons c cs ih =>
    intro b h
    cases b with
    | nil => simp [strLt] at h
    | cons d ds =>
      simp only [strLt] at h ⊢
      by_cases h1 : c < d
      · have h2 : ¬(d < c) := lt_asymm h1
        simp [h1, h2]
      · by_cases h2 : d < c
        · simp [h1, h2] at h
        · simp only [h1, h2, if_false] at h ⊢
          exact ih ds h

lemma insertKV_append (acc : List KV) (k : Str) (v : Option Str)
    (h : ∀ e ∈ acc, strLt e.1 k = true) : insertKV acc k v = acc ++ [(k, v)] := by
  induction acc with
  | nil => rfl
  | cons e acc2 ih =>
    obtain ⟨k2, v2⟩ := e
    have h1 : strLt k2 k = true := h (k2, v2) (by simp)
    have h2 : strLt k k2 = false := strLt_asymm _ _ h1
    have h3 : ¬(k = k2) := by
      intro he
      subst he
      rw [strLt_irrefl] at h1
      exact Bool.false_ne_true h1
    simp [insertKV, h2, h3, ih (fun e he => h e (by simp [he]))]

/-- A token that re-parses as a key or value: valid and at least two
characters long (a one-character token would be taken for a singleton). -/
def goodTok (s : Str) : Bool := validTok s && decide (1 < s.length)

def goodEntry (e : KV) : Bool :=
  goodTok e.1 && (match e.2 with
    | none => true
    | some w => goodTok w)

def goodKVs (l : List KV) : Bool := l.all goodEntry

/-- Every entry but the last carries a value: under the greedy key/value
pairing of the parsers, a value-less entry followed by another key would
re-parse as a key/value pair. -/
def pairable : List KV → Bool
  | [] => true
  | [_] => true
  | (_, v) :: e :: r => v.isSome && pairable (e :: r)

/-- Strong sortedness by key: every entry's key is `strLt` all later keys. -/
def sortedKeys : List KV → Bool
  | [] => true
  | e :: r => r.all (fun e2 => strLt e.1 e2.1) && sortedKeys r

def validKVs (l : List KV) : Bool := sortedKeys l && goodKVs l && pairable l

/-- The token stream position where a section parser must stop: end of
input or a singleton token. -/
def stopCond : List Str → Bool
  | [] => true
  | t :: _ => decide (t.length = 1)

/-- A canonical-form `ExtensionsMap`: both key/value sections sorted,
well-formed and pairable, private tags well-formed, and `other` empty
(the parsers never populate `other` and `Display` never writes it). -/
def ValidMap (m : ExtensionsMap) : Bool :=
  validKVs m.unicode.keywords && validKVs m.transform.keywords
    && m.private_.tags.all goodTok && m.other.isEmpty

lemma pairable_tail (e : KV) (l : List KV) (h : pairable (e :: l) = true) :
    pairable l = true := by
  cases l with
  | nil => rfl
  | cons e2 r =>
    obtain ⟨k, v⟩ := e
    simp only [pairable, Bool.and_eq_true] at h
    exact h.2

lemma pairable_none_head (k : Str) (l : List KV)
    (h : pairable ((k, none) :: l) = true) : l = [] := by
  cases l with
  | nil => rfl
  | cons e2 r => simp [pairable] at h

lemma goodEntry_unpack (k : Str) (v : Option Str) (h : goodEntry (k, v) = true) :
    validTok k = true ∧ 1 < k.length
      ∧ (∀ w, v = some w → validTok w = true ∧ 1 < w.length) := by
  simp only [goodEntry, goodTok, Bool.and_eq_true, decide_eq_true_eq] at h
  refine ⟨h.1.1, h.1.2, ?_⟩
  intro w hw
  subst hw
  simp only [Bool.and_eq_true, decide_eq_true_eq] at h
  exact h.2

lemma kvFromIter_entryToks : ∀ (kws acc : List KV) (rest : List Str),
    goodKVs kws = true → pairable kws = true → sortedKeys kws = true →
    (∀ e ∈ acc, ∀ e2 ∈ kws, strLt e.1 e2.1 = true) →
    stopCond rest = true →
    kvFromIter acc (entryToks kws ++ rest) = .ok (acc ++ kws, rest) := by
  intro kws
  induction kws with
  | nil =>
    intro acc rest _ _ _ _ hstop
    simp only [entryToks, List.nil_append]
    cases rest with
    | nil => simp [kvFromIter]
    | cons t ts =>
      have ht : t.length = 1 := by simpa [stopCond] using hstop
      rw [kvFromIter.eq_def]
      simp [ht]
  | cons e kws2 ih =>
    obtain ⟨k, v⟩ := e
    intro acc rest hg hp hs hacc hstop
    have hg2 : goodEntry (k, v) = true ∧ goodKVs kws2 = true := by
      simpa [goodKVs, Bool.and_eq_true] using hg
    obtain ⟨hk1, hk2, hvw⟩ := goodEntry_unpack k v hg2.1
    have hknot1 : ¬(k.length = 1) := by omega
    have hs2 : kws2.all (fun e2 => strLt k e2.1) = true ∧ sortedKeys kws2 = true := by
      simpa [sortedKeys, Bool.and_eq_true] using hs
    have hacck : ∀ e ∈ acc, strLt e.1 k = true :=
      fun e he => hacc e he (k, v) (by simp)
    have hins : ∀ w, insertKV acc k w = acc ++ [(k, w)] :=
      fun w => insertKV_append acc k w hacck
    have hacc2 : ∀ w, ∀ e ∈ acc ++ [(k, w)], ∀ e2 ∈ kws2, strLt e.1 e2.1 = true := by
      intro w e he e2 he2
      rcases List.mem_append.mp he with h | h
      · exact hacc e h e2 (by simp [he2])
      · have : e = (k, w) := by simpa using h
        subst this
        exact List.all_eq_true.mp hs2.1 e2 he2
    cases v with
    | some w =>
      obtain ⟨hw1, hw2⟩ := hvw w rfl
      have hrec := ih (acc ++ [(k, some w)]) rest hg2.2 (pairable_tail _ _ hp) hs2.2
        (hacc2 (some w)) hstop
      simp only [entryToks, List.cons_append]
      simp [kvFromIter, hknot1, hw2, setKV, hk1, hw1, hins (some w), hrec,
        List.append_assoc]
    | none =>
      have hkws2 : kws2 = [] := pairable_none_head k kws2 hp
      subst hkws2
      simp only [entryToks, List.cons_append, List.nil_append]
      cases rest with
      | nil => simp [kvFromIter, hknot1, setKV, hk1, hins none]
      | cons t ts =>
        have ht : t.length = 1 := by simpa [stopCond] using hstop
        have ht2 : ¬(1 < t.length) := by omega
        have hstep : kvFromIter (acc ++ [(k, none)]) (t :: ts)
            = .ok (acc ++ [(k, none)], t :: ts) := by
          rw [kvFromIter.eq_def]
          simp [ht]
        simp [kvFromIter, hknot1, ht2, setKV, hk1, hins none, hstep]

lemma pvtFromIter_tags : ∀ (tags : List Str) (acc rest : List Str),
    tags.all goodTok = true → stopCond rest = true →
    pvtFromIter acc (tags ++ rest) = .ok (acc ++ tags, rest) := by
  intro tags
  induction tags with
  | nil =>
    intro acc rest _ hstop
    simp only [List.nil_append]
    cases rest with
    | nil => simp [pvtFromIter]
    | cons t ts =>
      have ht : t.length = 1 := by simpa [stopCond] using hstop
      simp [pvtFromIter, ht]
  | cons t tags2 ih =>
    intro acc rest hg hstop
    have hg2 : goodTok t = true ∧ tags2.all goodTok = true := by
      simpa [Bool.and_eq_true] using hg
    have ht : validTok t = true ∧ 1 < t.length := by
      simpa [goodTok, Bool.and_eq_true, decide_eq_true_eq] using hg2.1
    have htnot1 : ¬(t.length = 1) := by omega
    have hrec := ih (acc ++ [t]) rest hg2.2 hstop
    simp [pvtFromIter, htnot1, ht.1, hrec, List.append_assoc]

lemma kvFromIter_rest_le (acc : List KV) (toks : List Str) :
    ∀ kws rest, kvFromIter acc toks = .ok (kws, rest) → rest.length ≤ toks.length := by
  induction acc, toks using kvFromIter.induct with
  | case1 acc =>
    intro kws rest h
    simp only [kvFromIter] at h
    cases h
    simp
  | case2 acc t ts h1 =>
    intro kws rest h
    rw [kvFromIter.eq_def] at h
    simp [h1] at h
    obtain ⟨-, rfl⟩ := h
    exact Nat.le_refl _
  | case3 acc t h1 l hset =>
    intro kws rest h
    simp [kvFromIter, h1, hset] at h
    obtain ⟨-, rfl⟩ := h
    simp
  | case4 acc t h1 e hset =>
    intro kws rest h
    simp [kvFromIter, h1, hset] at h
  | case5 acc t h1 v ts hv l hset ih =>
    intro kws rest h
    simp [kvFromIter, h1, hv, hset] at h
    have := ih _ _ h
    simp only [List.length_cons]
    omega
  | case6 acc t h1 v ts hv e hset =>
    intro kws rest h
    simp [kvFromIter, h1, hv, hset] at h
  | case7 acc t h1 v ts hv l hset ih =>
    intro kws rest h
    simp [kvFromIter, h1, hv, hset] at h
    have := ih _ _ h
    simp only [List.length_cons] at this ⊢
    omega
  | case8 acc t h1 v ts hv e hset =>
    intro kws rest h
    simp [kvFromIter, h1, hv, hset] at h

lemma pvtFromIter_rest_le (acc : List Str) (toks : List Str) :
    ∀ tags rest, pvtFromIter acc toks = .ok (tags, rest) → rest.length ≤ toks.length := by
  induction acc, toks using pvtFromIter.induct with
  | case1 acc =>
    intro tags rest h
    simp only [pvtFromIter] at h
    cases h
    simp
  | case2 acc t ts h1 =>
    intro tags rest h
    rw [pvtFromIter.eq_def] at h
    simp [h1] at h
    obtain ⟨-, rfl⟩ := h
    exact Nat.le_refl _
  | case3 acc t ts h1 h2 ih =>
    intro tags rest h
    rw [pvtFromIter.eq_def] at h
    simp [h1, h2] at h
    have := ih _ _ h
    simp only [List.length_cons]
    omega
  | case4 acc t ts h1 h2 =>
    intro tags rest h
    rw [pvtFromIter.eq_def] at h
    simp [h1, h2] at h

lemma tryFuel_nil (f : Nat) (m : ExtensionsMap) : tryFromIterFuel f [] m = .ok m := by
  cases f <;> rfl

lemma tryFuel_mono : ∀ (N : Nat) (toks : List Str) (f1 f2 : Nat) (m : ExtensionsMap),
    toks.length ≤ N → toks.length ≤ f1 → toks.length ≤ f2 →
    tryFromIterFuel f1 toks m = tryFromIterFuel f2 toks m := by
  intro N
  induction N with
  | zero =>
    intro toks f1 f2 m h0 _ _
    have hnil : toks = [] := by
      cases toks
      · rfl
      · simp at h0
    subst hnil
    rw [tryFuel_nil, tryFuel_nil]
  | succ N ih =>
    intro toks f1 f2 m h0 h1 h2
    cases toks with
    | nil => rw [tryFuel_nil, tryFuel_nil]
    | cons t ts =>
      obtain ⟨g1, rfl⟩ : ∃ g, f1 = g + 1 := by
        cases f1
        · simp at h1
        · exact ⟨_, rfl⟩
      obtain ⟨g2, rfl⟩ : ∃ g, f2 = g + 1 := by
        cases f2
        · simp at h2
        · exact ⟨_, rfl⟩
      simp only [List.length_cons] at h0 h1 h2
      simp only [tryFromIterFuel]
      cases hd : dispatchOf t with
      | NoByte => exact ih ts g1 g2 m (by omega) (by omega) (by omega)
      | U =>
        cases hkv : kvFromIter [] ts with
        | error e => rfl
        | ok pr =>
          obtain ⟨kws, rest⟩ := pr
          have hle := kvFromIter_rest_le [] ts kws rest hkv
          exact ih rest g1 g2 _ (by omega) (by omega) (by omega)
      | T =>
        cases hkv : kvFromIter [] ts with
        | error e => rfl
        | ok pr =>
          obtain ⟨kws, rest⟩ := pr
          have hle := kvFromIter_rest_le [] ts kws rest hkv
          exact ih rest g1 g2 _ (by omega) (by omega) (by omega)
      | X =>
        cases hkv : pvtFromIter [] ts with
        | error e => rfl
        | ok pr =>
          obtain ⟨tags, rest⟩ := pr
          have hle := pvtFromIter_rest_le [] ts tags rest hkv
          exact ih rest g1 g2 _ (by omega) (by omega) (by omega)
      | Boom => rfl

lemma dispatchOf_t : dispatchOf ['t'] = .T := rfl

lemma dispatchOf_u : dispatchOf ['u'] = .U := rfl

lemma dispatchOf_x : dispatchOf ['x'] = .X := rfl

lemma tryFuel_skip (f : Nat) (toks : List Str) (m : ExtensionsMap) :
    tryFromIterFuel (f + 1) ([] :: toks) m = tryFromIterFuel f toks m := by
  simp [tryFromIterFuel, dispatchOf]

lemma tryFuel_tStep (f : Nat) (ts : List Str) (m : ExtensionsMap) (kws : List KV)
    (rest : List Str) (hkv : kvFromIter [] ts = .ok (kws, rest)) :
    tryFromIterFuel (f + 1) (['t'] :: ts) m
      = tryFromIterFuel f rest { m with transform := ⟨kws⟩ } := by
  simp [tryFromIterFuel, dispatchOf_t, hkv]

lemma tryFuel_uStep (f : Nat) (ts : List Str) (m : ExtensionsMap) (kws : List KV)
    (rest : List Str) (hkv : kvFromIter [] ts = .ok (kws, rest)) :
    tryFromIterFuel (f + 1) (['u'] :: ts) m
      = tryFromIterFuel f rest { m with unicode := ⟨kws⟩ } := by
  simp [tryFromIterFuel, dispatchOf_u, hkv]

lemma tryFuel_xStep (f : Nat) (ts : List Str) (m : ExtensionsMap) (tags : List Str)
    (rest : List Str) (hkv : pvtFromIter [] ts = .ok (tags, rest)) :
    tryFromIterFuel (f + 1) (['x'] :: ts) m
      = tryFromIterFuel f rest { m with private_ := ⟨tags⟩ } := by
  simp [tryFromIterFuel, dispatchOf_x, hkv]

lemma validKVs_unpack (l : List KV) (h : validKVs l = true) :
    sortedKeys l = true ∧ goodKVs l = true ∧ pairable l = true := by
  simpa [validKVs, Bool.and_eq_true, and_assoc] using h

lemma tryFuel_tSection (tkws : List KV) (rest : List Str) (m : ExtensionsMap)
    (hv : validKVs tkws = true) (hstop : stopCond rest = true)
    (hm : m.transform = ⟨[]⟩) :
    tryFromIterFuel (sectionToks 't' tkws ++ rest).length (sectionToks 't' tkws ++ rest) m
      = tryFromIterFuel rest.length rest { m with transform := ⟨tkws⟩ } := by
  cases tkws with
  | nil =>
    have he : ({ m with transform := ⟨[]⟩ } : ExtensionsMap) = m := by rw [← hm]
    simp [sectionToks, he]
  | cons e kws2 =>
    obtain ⟨hs, hg, hp⟩ := validKVs_unpack _ hv
    have hkv : kvFromIter [] (entryToks (e :: kws2) ++ rest) = .ok (e :: kws2, rest) := by
      simpa using kvFromIter_entryToks (e :: kws2) [] rest hg hp hs (by simp) hstop
    have hsec : sectionToks 't' (e :: kws2) = ['t'] :: entryToks (e :: kws2) := by
      simp [sectionToks]
    rw [hsec, List.cons_append, List.length_cons, tryFuel_tStep _ _ _ _ _ hkv]
    exact tryFuel_mono (entryToks (e :: kws2) ++ rest).length rest _ _ _
      (by simp) (by simp) (le_refl _)

lemma tryFuel_uSection (ukws : List KV) (rest : List Str) (m : ExtensionsMap)
    (hv : validKVs ukws = true) (hstop : stopCond rest = true)
    (hm : m.unicode = ⟨[]⟩) :
    tryFromIterFuel (sectionToks 'u' ukws ++ rest).length (sectionToks 'u' ukws ++ rest) m
      = tryFromIterFuel rest.length rest { m with unicode := ⟨ukws⟩ } := by
  cases ukws with
  | nil =>
    have he : ({ m with unicode := ⟨[]⟩ } : ExtensionsMap) = m := by rw [← hm]
    simp [sectionToks, he]
  | cons e kws2 =>
    obtain ⟨hs, hg, hp⟩ := validKVs_unpack _ hv
    have hkv : kvFromIter [] (entryToks (e :: kws2) ++ rest) = .ok (e :: kws2, rest) := by
      simpa using kvFromIter_entryToks (e :: kws2) [] rest hg hp hs (by simp) hstop
    have hsec : sectionToks 'u' (e :: kws2) = ['u'] :: entryToks (e :: kws2) := by
      simp [sectionToks]
    rw [hsec, List.cons_append, List.length_cons, tryFuel_uStep _ _ _ _ _ hkv]
    exact tryFuel_mono (entryToks (e :: kws2) ++ rest).length rest _ _ _
      (by simp) (by simp) (le_refl _)

lemma tryFuel_xSection (ptags : List Str) (m : ExtensionsMap)
    (hp : ptags.all goodTok = true) (hm : m.private_ = ⟨[]⟩) :
    tryFromIterFuel (pvtToks ptags).length (pvtToks ptags) m
      = .ok { m with private_ := ⟨ptags⟩ } := by
  cases ptags with
  | nil =>
    have he : ({ m with private_ := ⟨[]⟩ } : ExtensionsMap) = m := by rw [← hm]
    simp [pvtToks, he, tryFuel_nil]
  | cons t tags2 =>
    have hkv : pvtFromIter [] (t :: tags2) = .ok (t :: tags2, []) := by
      simpa using pvtFromIter_tags (t :: tags2) [] [] hp rfl
    have hsec : pvtToks (t :: tags2) = ['x'] :: (t :: tags2) := by
      simp [pvtToks]
    rw [hsec, List.length_cons, tryFuel_xStep _ _ _ _ _ hkv]
    exact tryFuel_nil _ _

lemma dashJoin_append (a b : List Str) : dashJoin (a ++ b) = dashJoin a ++ dashJoin b := by
  induction a with
  | nil => simp [dashJoin]
  | cons t ts ih => simp [dashJoin, ih]

lemma splitSep_dashJoin : ∀ (toks : List Str), toks ≠ [] →
    (∀ t ∈ toks, ∀ c ∈ t, isSep c = false) →
    splitSep (dashJoin toks) = [] :: toks := by
  intro toks
  induction toks with
  | nil => intro h; exact absurd rfl h
  | cons t ts ih =>
    intro _ hfree
    have hft : ∀ c ∈ t, isSep c = false := hfree t (by simp)
    simp only [dashJoin]
    rw [List.cons_append, splitSep_sep_cons '-' _ (by decide)]
    cases ts with
    | nil =>
      rw [show t ++ dashJoin [] = t ++ [] from rfl, List.append_nil]
      rw [splitSep_sepFree t hft]
    | cons t2 ts2 =>
      have hrec := ih (by simp) (fun x hx c hc => hfree x (by simp [hx]) c hc)
      rw [splitSep_sepFree_append t _ _ _ hft hrec]
      simp

lemma entryToks_validTok : ∀ (kws : List KV), goodKVs kws = true →
    ∀ t ∈ entryToks kws, validTok t = true := by
  intro kws
  induction kws with
  | nil =>
    intro _ t ht
    simp [entryToks] at ht
  | cons e kws2 ih =>
    obtain ⟨k, v⟩ := e
    intro hg t ht
    have hg2 : goodEntry (k, v) = true ∧ goodKVs kws2 = true := by
      simpa [goodKVs, Bool.and_eq_true] using hg
    obtain ⟨hk1, _, hvw⟩ := goodEntry_unpack _ _ hg2.1
    cases v with
    | none =>
      simp only [entryToks] at ht
      rcases List.mem_cons.mp ht with h | h
      · subst h; exact hk1
      · exact ih hg2.2 t h
    | some w =>
      simp only [entryToks] at ht
      rcases List.mem_cons.mp ht with h | h
      · subst h; exact hk1
      · rcases List.mem_cons.mp h with h2 | h2
        · rw [h2]; exact (hvw w rfl).1
        · exact ih hg2.2 t h2

lemma sectionToks_sepFree (letter : Char) (kws : List KV) (hl : isSep letter = false)
    (hg : goodKVs kws = true) :
    ∀ t ∈ sectionToks letter kws, ∀ c ∈ t, isSep c = false := by
  intro t ht c hc
  cases he : kws.isEmpty with
  | true => simp [sectionToks, he] at ht
  | false =>
    simp only [sectionToks, he, Bool.false_eq_true, if_false] at ht
    rcases List.mem_cons.mp ht with h | h
    · subst h
      simp only [List.mem_singleton] at hc
      subst hc
      exact hl
    · exact validTok_sepFree t (entryToks_validTok kws hg t h) c hc

lemma pvtToks_sepFree (tags : List Str) (hp : tags.all goodTok = true) :
    ∀ t ∈ pvtToks tags, ∀ c ∈ t, isSep c = false := by
  intro t ht c hc
  cases he : tags.isEmpty with
  | true => simp [pvtToks, he] at ht
  | false =>
    simp only [pvtToks, he, Bool.false_eq_true, if_false] at ht
    rcases List.mem_cons.mp ht with h | h
    · subst h
      simp only [List.mem_singleton] at hc
      subst hc
      decide
    · have hgt : goodTok t = true := List.all_eq_true.mp hp t h
      have hvt : validTok t = true := by
        simp only [goodTok, Bool.and_eq_true] at hgt
        exact hgt.1
      exact validTok_sepFree t hvt c hc

lemma stopCond_uSections (ukws : List KV) (ptags : List Str) :
    stopCond (sectionToks 'u' ukws ++ pvtToks ptags) = true := by
  cases ukws with
  | cons e kws2 => simp [sectionToks, stopCond]
  | nil =>
    simp only [sectionToks, List.isEmpty_nil, if_true, List.nil_append]
    cases ptags with
    | nil => simp [pvtToks, stopCond]
    | cons t tags2 => simp [pvtToks, stopCond]

lemma stopCond_pvt (ptags : List Str) : stopCond (pvtToks ptags) = true := by
  cases ptags with
  | nil => simp [pvtToks, stopCond]
  | cons t tags2 => simp [pvtToks, stopCond]

lemma sectionToks_eq_nil (letter : Char) (kws : List KV)
    (h : sectionToks letter kws = []) : kws = [] := by
  cases kws with
  | nil => rfl
  | cons e r => simp [sectionToks] at h

lemma pvtToks_eq_nil (tags : List Str) (h : pvtToks tags = []) : tags = [] := by
  cases tags with
  | nil => rfl
  | cons t r => simp [pvtToks] at h

/-- C1: for any `ExtensionsMap` in canonical form, serializing with
`Display` and re-parsing with `from_bytes` succeeds and returns the same
map; hence for every canonical extensions string (a string of the form
`m.toStr` for a canonical `m`) parsing succeeds and `Display` of the
result is exactly the input string. -/
theorem extensionsMap_roundtrip_canonical (m : ExtensionsMap) (h : ValidMap m = true) :
    ExtensionsMap.from_bytes m.toStr = .ok m
    ∧ (ExtensionsMap.from_bytes m.toStr).map ExtensionsMap.toStr = .ok m.toStr := by
  obtain ⟨⟨ukws⟩, ⟨tkws⟩, mo, ⟨ptags⟩⟩ := m
  have hv : validKVs ukws = true ∧ validKVs tkws = true
      ∧ ptags.all goodTok = true ∧ mo = [] := by
    simpa [ValidMap, Bool.and_eq_true, and_assoc, List.isEmpty_iff] using h
  obtain ⟨hu, ht, hp, ho⟩ := hv
  subst ho
  have main : ExtensionsMap.from_bytes
      (ExtensionsMap.toStr ⟨⟨ukws⟩, ⟨tkws⟩, [], ⟨ptags⟩⟩)
        = .ok ⟨⟨ukws⟩, ⟨tkws⟩, [], ⟨ptags⟩⟩ := by
    have htos : ExtensionsMap.toStr ⟨⟨ukws⟩, ⟨tkws⟩, [], ⟨ptags⟩⟩
        = dashJoin (sectionToks 't' tkws ++ (sectionToks 'u' ukws ++ pvtToks ptags)) := by
      simp [ExtensionsMap.toStr, UnicodeExtensionList.toStr,
        TransformExtensionList.toStr, PrivateExtensionList.toStr, dashJoin_append]
    rw [htos]
    by_cases hL : sectionToks 't' tkws ++ (sectionToks 'u' ukws ++ pvtToks ptags) = []
    · rw [List.append_eq_nil] at hL
      obtain ⟨h1, hL2⟩ := hL
      rw [List.append_eq_nil] at hL2
      obtain ⟨h2, h3⟩ := hL2
      have e1 := sectionToks_eq_nil _ _ h1
      have e2 := sectionToks_eq_nil _ _ h2
      have e3 := pvtToks_eq_nil _ h3
      subst e1
      subst e2
      subst e3
      decide
    · have hfree : ∀ t ∈ sectionToks 't' tkws ++ (sectionToks 'u' ukws ++ pvtToks ptags),
          ∀ c ∈ t, isSep c = false := by
        intro t htm c hc
        rcases List.mem_append.mp htm with h1 | h1
        · exact sectionToks_sepFree 't' tkws (by decide)
            (validKVs_unpack _ ht).2.1 t h1 c hc
        · rcases List.mem_append.mp h1 with h2 | h2
          · exact sectionToks_sepFree 'u' ukws (by decide)
              (validKVs_unpack _ hu).2.1 t h2 c hc
          · exact pvtToks_sepFree ptags hp t h2 c hc
      have hsplit := splitSep_dashJoin _ hL hfree
      simp only [ExtensionsMap.from_bytes, ExtensionsMap.try_from_iter]
      rw [hsplit, List.length_cons, tryFuel_skip,
        tryFuel_tSection tkws _ ExtensionsMap.default ht
          (stopCond_uSections ukws ptags) rfl,
        tryFuel_uSection ukws _ _ hu (stopCond_pvt ptags) rfl,
        tryFuel_xSection ptags _ hp rfl]
      rfl
  exact ⟨main, by rw [main]; rfl⟩

/-- Witness for C1: the canonical map for `-t-xxxx-u-ca-gregory-x-abcd`
round-trips. -/
theorem extensionsMap_roundtrip_canonical_witness :
    ValidMap ⟨⟨[(strOf "ca", some (strOf "gregory"))]⟩, ⟨[(strOf "xxxx", none)]⟩,
        [], ⟨[strOf "abcd"]⟩⟩ = true
    ∧ ExtensionsMap.from_bytes
        (ExtensionsMap.toStr ⟨⟨[(strOf "ca", some (strOf "gregory"))]⟩,
          ⟨[(strOf "xxxx", none)]⟩, [], ⟨[strOf "abcd"]⟩⟩)
      = .ok ⟨⟨[(strOf "ca", some (strOf "gregory"))]⟩, ⟨[(strOf "xxxx", none)]⟩,
          [], ⟨[strOf "abcd"]⟩⟩ :=
  ⟨by decide, (extensionsMap_roundtrip_canonical _ (by decide)).1⟩
